import Mathlib

/-
Verification of purge-gcloud-app (src/index.js, src/run.js) against its
natural-language specification.

The program has three functions:
  * fetchVersions(options)     - lists deployed versions via an external command;
  * deleteVersions(options, versions) - validates ids and deletes them in
    batches of `deleteAtMost` via an external command;
  * purgeOldVersionsFor(options) - the exported entry point: fetches, classifies
    versions into kept / deletion candidates, and deletes the candidates.

The shallow embedding below renders the pure logic as Lean functions.  External
subprocess calls are modelled by an oracle `ok : Nat -> Bool` giving the exit
status (success or failure) of the n-th delete call; the trace of issued calls
(the chunks of ids handed to the external command) is returned alongside the
result so that call counts can be stated.  JavaScript dynamic values that
matter to the claims (undefined, strings, numbers, functions) are modelled by
the small type `JsVal`; timestamps are integers (milliseconds since epoch) and
calendar days are the floor of the timestamp over the milliseconds in a day,
which is how toISOString-based day keys behave on a UTC clock basis.
-/

/-! ## Batched deleter (src/index.js, deleteVersions, lines 59-106) -/

/-- Batch size for deletion: the constant `deleteAtMost = 4` of src/index.js. -/
def deleteAtMost : Nat := 4

/-- The id validation of deleteVersions (lines 61-70): an id is bad when it
starts with a dash (startsWith('-')) or contains a backslash (includes('\\')),
here phrased on the character list of the string.  (The source additionally
rejects non-string values; in this typed embedding ids are always strings.) -/
def badVersion (s : String) : Bool :=
  (match s.data with
   | '-' :: _ => true
   | _ => false) || s.data.contains '\\'

/-- The JavaScript values relevant to the claims: undefined, strings, numbers,
and callable function values (kept abstract). -/
inductive JsVal where
  | undef : JsVal
  | str : String → JsVal
  | num : Int → JsVal
  | fn : JsVal
deriving DecidableEq

/-- The while-loop of deleteVersions (lines 75-104), operating on the sliced
copy.  Each iteration splices off up to `deleteAtMost` ids, calls the log sink
(a TypeError is raised if the bound log value is not callable, as happens when
an options object was not supplied), then performs the external delete call;
on a non-zero status it breaks, returning the accumulated count.  Returns the
trace of issued chunks together with the outcome. -/
def deleteLoop (logv : JsVal) (ok : Nat → Bool) (work : List String)
    (callIdx done : Nat) : List (List String) × Except String Nat :=
  match work with
  | [] => ([], .ok done)
  | x :: rest =>
    match logv with
    | .fn =>
      let next := (x :: rest).take deleteAtMost
      if ok callIdx then
        let r := deleteLoop logv ok ((x :: rest).drop deleteAtMost) (callIdx + 1)
          (done + next.length)
        (next :: r.1, r.2)
      else
        ([next], .ok done)
    | _ => ([], .error ("TypeError: log is not a function"))
termination_by work.length
decreasing_by simp [deleteAtMost]; omega

/-- deleteVersions (src/index.js lines 59-106): validate every id up front
(the forEach throws at the first bad id, before any external call), then run
the batch loop on a copy of the list.  `logv` is the destructured log field of
the first argument. -/
def deleteVersions (logv : JsVal) (ok : Nat → Bool) (versions : List String) :
    List (List String) × Except String Nat :=
  match versions.find? badVersion with
  | some v => ([], .error ("bad version: " ++ v))
  | none => deleteLoop logv ok versions 0 0

lemma deleteLoop_cons (ok : Nat → Bool) (x : String) (rest : List String)
    (callIdx done : Nat) :
    deleteLoop .fn ok (x :: rest) callIdx done =
      (if ok callIdx then
        ((x :: rest).take 4 ::
          (deleteLoop .fn ok ((x :: rest).drop 4) (callIdx + 1)
            (done + ((x :: rest).take 4).length)).1,
         (deleteLoop .fn ok ((x :: rest).drop 4) (callIdx + 1)
            (done + ((x :: rest).take 4).length)).2)
      else ([(x :: rest).take 4], .ok done)) := by
  rw [deleteLoop]
  norm_num [deleteAtMost]

lemma deleteLoop_all_ok (ok : Nat → Bool) :
    ∀ (n : Nat) (work : List String), work.length ≤ n →
      ∀ (callIdx done : Nat), (∀ j, ok j = true) →
      (deleteLoop .fn ok work callIdx done).2 = .ok (done + work.length) ∧
      (deleteLoop .fn ok work callIdx done).1.length = (work.length + 3) / 4 := by
  intro n
  induction n with
  | zero =>
    intro work hw callIdx done hok
    match work with
    | [] => simp [deleteLoop]
    | x :: rest => simp at hw
  | succ n ih =>
    intro work hw callIdx done hok
    match work with
    | [] => simp [deleteLoop]
    | x :: rest =>
      rw [deleteLoop_cons]
      simp only [hok callIdx, if_true]
      simp only [List.length_cons] at hw
      have h1 : ((x :: rest).drop 4).length ≤ n := by
        simp [List.length_drop]; omega
      obtain ⟨h2, h3⟩ := ih ((x :: rest).drop 4) h1 (callIdx + 1)
        (done + ((x :: rest).take 4).length) hok
      refine ⟨?_, ?_⟩
      · show (deleteLoop .fn ok ((x :: rest).drop 4) (callIdx + 1)
          (done + ((x :: rest).take 4).length)).2 = _
        rw [h2]
        congr 1
        simp [List.length_drop, List.length_take]
        omega
      · show ((x :: rest).take 4 :: _).length = _
        simp only [List.length_cons, h3, List.length_drop]
        simp
        omega

lemma deleteLoop_first_fail (ok : Nat → Bool) :
    ∀ (n : Nat) (work : List String), work.length ≤ n →
      ∀ (callIdx done m : Nat),
      (∀ j, j < m → ok (callIdx + j) = true) → ok (callIdx + m) = false →
      m * 4 < work.length →
      (deleteLoop .fn ok work callIdx done).1.length = m + 1 ∧
      (deleteLoop .fn ok work callIdx done).2 = .ok (done + m * 4) := by
  intro n
  induction n with
  | zero =>
    intro work hw callIdx done m hprev hfail hm
    omega
  | succ n ih =>
    intro work hw callIdx done m hprev hfail hm
    match work with
    | [] => simp at hm
    | x :: rest =>
      rw [deleteLoop_cons]
      match m with
      | 0 =>
        have hcall : ok callIdx = false := by simpa using hfail
        simp [hcall]
      | m' + 1 =>
        have hcall : ok callIdx = true := by
          have := hprev 0 (by omega)
          simpa using this
        simp only [hcall, if_true]
        simp only [List.length_cons] at hw hm
        have h1 : ((x :: rest).drop 4).length ≤ n := by
          simp [List.length_drop]; omega
        have hprev' : ∀ j, j < m' → ok (callIdx + 1 + j) = true := by
          intro j hj
          have := hprev (j + 1) (by omega)
          have harith : callIdx + (j + 1) = callIdx + 1 + j := by omega
          rwa [harith] at this
        have hfail' : ok (callIdx + 1 + m') = false := by
          have harith : callIdx + (m' + 1) = callIdx + 1 + m' := by omega
          rwa [harith] at hfail
        have hm' : m' * 4 < ((x :: rest).drop 4).length := by
          simp [List.length_drop]; omega
        obtain ⟨h2, h3⟩ := ih ((x :: rest).drop 4) h1 (callIdx + 1)
          (done + ((x :: rest).take 4).length) m' hprev' hfail' hm'
        refine ⟨?_, ?_⟩
        · show ((x :: rest).take 4 :: _).length = _
          simp only [List.length_cons, h2]
        · show (deleteLoop .fn ok ((x :: rest).drop 4) (callIdx + 1)
            (done + ((x :: rest).take 4).length)).2 = _
          rw [h3]
          congr 1
          simp [List.length_take]
          omega

lemma find?_badVersion_eq_none {ids : List String}
    (hvalid : ∀ v ∈ ids, badVersion v = false) :
    ids.find? badVersion = none := by
  rw [List.find?_eq_none]
  intro x hx
  simp [hvalid x hx]

/-- C5: on a list of L valid ids with batch size 4, the deleter issues
ceil(L/4) external calls and returns L when every call succeeds; when the k-th
call is the first to fail it issues exactly k calls (no further ones) and
returns (k-1)*4, the total accumulated before the failing chunk. -/
theorem c5_delete_batching (ok : Nat → Bool) (ids : List String)
    (hvalid : ∀ v ∈ ids, badVersion v = false) :
    ((∀ j, ok j = true) →
      (deleteVersions .fn ok ids).1.length = (ids.length + 3) / 4 ∧
      (deleteVersions .fn ok ids).2 = .ok ids.length) ∧
    (∀ k, 0 < k → (k - 1) * 4 < ids.length →
      (∀ j, j + 1 < k → ok j = true) → ok (k - 1) = false →
      (deleteVersions .fn ok ids).1.length = k ∧
      (deleteVersions .fn ok ids).2 = .ok ((k - 1) * 4)) := by
  have hfind := find?_badVersion_eq_none hvalid
  refine ⟨?_, ?_⟩
  · intro hok
    obtain ⟨h2, h3⟩ := deleteLoop_all_ok ok ids.length ids le_rfl 0 0 hok
    simp only [deleteVersions, hfind]
    exact ⟨h3, by simpa using h2⟩
  · intro k hk hkL hprev hfail
    have hprev' : ∀ j, j < k - 1 → ok (0 + j) = true := by
      intro j hj
      simpa using hprev j (by omega)
    have hfail' : ok (0 + (k - 1)) = false := by simpa using hfail
    obtain ⟨h2, h3⟩ := deleteLoop_first_fail ok ids.length ids le_rfl 0 0 (k - 1)
      hprev' hfail' hkL
    simp only [deleteVersions, hfind]
    refine ⟨by rw [h2]; omega, by rw [h3]; simp⟩

/-- Witness for C5: the spec scenario of nine valid ids where the first two
calls succeed and the third fails: three calls are issued in total and the
result is 8 = (3-1)*4. -/
theorem c5_delete_batching_witness :
    (deleteVersions .fn (fun j => decide (j < 2))
      ["a", "b", "c", "d", "e", "f", "g", "h", "i"]).1.length = 3 ∧
    (deleteVersions .fn (fun j => decide (j < 2))
      ["a", "b", "c", "d", "e", "f", "g", "h", "i"]).2 = .ok 8 := by
  have h := (c5_delete_batching (fun j => decide (j < 2))
    ["a", "b", "c", "d", "e", "f", "g", "h", "i"] (by decide)).2
    3 (by decide) (by decide)
    (by intro j hj; simp; omega) (by decide)
  exact h

/-- C6: if any id in the list starts with a dash or contains a backslash, the
whole deletion fails up front: no external call is issued (empty trace) and an
error is raised before anything is deleted. -/
theorem c6_validation_aborts (logv : JsVal) (ok : Nat → Bool)
    (ids : List String) (v : String) (hv : v ∈ ids)
    (hbad : badVersion v = true) :
    (deleteVersions logv ok ids).1 = [] ∧
    ∃ e, (deleteVersions logv ok ids).2 = .error e := by
  have hne : ids.find? badVersion ≠ none := by
    intro h
    rw [List.find?_eq_none] at h
    exact h v hv hbad
  match hfind : ids.find? badVersion with
  | some w => simp [deleteVersions, hfind]
  | none => exact absurd hfind hne

/-- Witness for C6: the id list containing the single bad id "-foo" (which
starts with a dash) produces an empty call trace and an error. -/
theorem c6_validation_aborts_witness :
    (deleteVersions .fn (fun _ => true) ["ok1", "-foo"]).1 = [] ∧
    ∃ e, (deleteVersions .fn (fun _ => true) ["ok1", "-foo"]).2 = .error e :=
  c6_validation_aborts .fn (fun _ => true) ["ok1", "-foo"] "-foo"
    (by decide) (by decide)

/-! ## Frame property of deleteVersions (C10): the caller's array is copied -/

/-- A store of JavaScript arrays, addressed by reference, used to state the
aliasing behaviour of deleteVersions. -/
def Store : Type := Nat → List String

/-- Update one array cell of the store. -/
def setCell (s : Store) (r : Nat) (v : List String) : Store :=
  fun q => if q = r then v else s q

/-- The while-loop of deleteVersions rendered with the array store explicit:
the loop reads and splices only the cell `copyRef`, which holds the slice made
at line 74.  `fuel` bounds the iteration count (the initial list length
suffices, because every iteration removes at least one element). -/
def deleteLoopHeap (ok : Nat → Bool) (fuel : Nat) (s : Store)
    (copyRef callIdx done : Nat) : Store × Nat :=
  match fuel with
  | 0 => (s, done)
  | fuel' + 1 =>
    match s copyRef with
    | [] => (s, done)
    | x :: rest =>
      let next := (x :: rest).take deleteAtMost
      let s' := setCell s copyRef ((x :: rest).drop deleteAtMost)
      if ok callIdx then
        deleteLoopHeap ok fuel' s' copyRef (callIdx + 1) (done + next.length)
      else (s', done)

/-- deleteVersions with the array store explicit: validation reads the
caller's array at `argRef`; line 74 (versions = versions.slice()) stores a
copy of its contents into the fresh cell `copyRef`, and the loop then consumes
only that copy. -/
def deleteVersionsHeap (ok : Nat → Bool) (s : Store) (argRef copyRef : Nat) :
    Store × Option Nat :=
  match (s argRef).find? badVersion with
  | some _ => (s, none)
  | none =>
    let s1 := setCell s copyRef (s argRef)
    let r := deleteLoopHeap ok (s argRef).length s1 copyRef 0 0
    (r.1, some r.2)

lemma deleteLoopHeap_frame (ok : Nat → Bool) :
    ∀ (fuel : Nat) (s : Store) (copyRef callIdx done q : Nat), q ≠ copyRef →
      (deleteLoopHeap ok fuel s copyRef callIdx done).1 q = s q := by
  intro fuel
  induction fuel with
  | zero =>
    intro s copyRef callIdx done q hq
    rfl
  | succ fuel ih =>
    intro s copyRef callIdx done q hq
    match hcell : s copyRef with
    | [] => simp [deleteLoopHeap, hcell]
    | x :: rest =>
      by_cases hok : ok callIdx = true
      · simp only [deleteLoopHeap, hcell, hok, if_true]
        rw [ih _ _ _ _ _ hq]
        simp [setCell, hq]
      · simp only [deleteLoopHeap, hcell, Bool.not_eq_true] at hok ⊢
        simp only [hok, Bool.false_eq_true, if_false]
        simp [setCell, hq]

/-- C10: whatever the id list holds and whatever the external calls return,
deleteVersions leaves the caller's array unchanged: line 74 slices a copy into
a fresh cell and the loop splices only the copy, so after the call the
caller's cell still holds exactly its original elements in order. -/
theorem c10_caller_list_unchanged (ok : Nat → Bool) (s : Store)
    (argRef copyRef : Nat) (hfresh : argRef ≠ copyRef) :
    (deleteVersionsHeap ok s argRef copyRef).1 argRef = s argRef := by
  unfold deleteVersionsHeap
  match hfind : (s argRef).find? badVersion with
  | some v => rfl
  | none =>
    simp only
    rw [deleteLoopHeap_frame ok _ _ _ _ _ _ hfresh]
    simp [setCell, hfresh]

/-- Witness for C10: a concrete store whose cell 0 holds six ids, a fresh copy
cell 1, and an oracle that fails the second call: the caller's cell still
holds the six original ids afterwards. -/
theorem c10_caller_list_unchanged_witness :
    (deleteVersionsHeap (fun j => decide (j = 0))
      (fun q => if q = 0 then ["v1", "v2", "v3", "v4", "v5", "v6"] else [])
      0 1).1 0 = ["v1", "v2", "v3", "v4", "v5", "v6"] := by
  have h := c10_caller_list_unchanged (fun j => decide (j = 0))
    (fun q => if q = 0 then ["v1", "v2", "v3", "v4", "v5", "v6"] else [])
    0 1 (by decide)
  simpa using h

/-! ## Version classifier (src/index.js, purgeOldVersionsFor, lines 114-184) -/

/-- A parsed version record as consumed by the classifier (spec section 3 and
lines 127-144 of src/index.js): the fields that matter, with the timestamp
already parsed to milliseconds since epoch and the traffic split an exact
numeric value compared against 0.0. -/
structure VersionRecord where
  id : String
  project : String
  service : String
  traffic_split : Rat
  diskUsageBytes : Nat
  lastDeployed : Int
deriving DecidableEq

/-- Milliseconds in a calendar day. -/
def msPerDay : Int := 86400000

/-- The calendar-day key of a timestamp: the date part of toISOString on a UTC
clock basis, i.e. the floor of the timestamp over msPerDay. -/
def dayKey (t : Int) : Int := Int.fdiv t msPerDay

/-- The day keys tracked by the day-bucket rule (lines 154-160): day 0 is
now's date, going backward for keepDailyAmount days. -/
def trackedDays (now : Int) (keepDailyAmount : Nat) : List Int :=
  (List.range keepDailyAmount).map (fun i => dayKey now - i)

/-- The scope-and-traffic filter of lines 128-135: a record is considered only
when it matches the configured project and service and serves no traffic. -/
def inScope (project service : String) (v : VersionRecord) : Bool :=
  v.project == project && v.service == service && v.traffic_split == 0

/-- Descending-recency ordering realising the sort at line 147 (most recent
first). -/
def moreRecent (a b : VersionRecord) : Prop :=
  b.lastDeployed ≤ a.lastDeployed

instance : DecidableRel moreRecent := fun _ _ => Int.decLe _ _

instance : IsTotal VersionRecord moreRecent :=
  ⟨fun a b => le_total b.lastDeployed a.lastDeployed⟩

instance : IsTrans VersionRecord moreRecent :=
  ⟨fun _ _ _ hab hbc => le_trans hbc hab⟩

/-- The in-scope records sorted most-recent first (lines 127-147).  The JS
sort with comparator b - a is the stable descending sort; a stable sort's
output is uniquely determined by the ordering, so insertion sort (stable)
realises it exactly. -/
def sortedCandidates (project service : String)
    (records : List VersionRecord) : List VersionRecord :=
  List.insertionSort moreRecent (records.filter (inScope project service))

/-- State of the classification filter (lines 154-184): the day-bucket map
versionsForDays (none = untracked day, some none = tracked and unfilled,
some (some id) = filled by id), and the records kept by the day-bucket rule,
kept by the recency rule, and left as deletion candidates, each in encounter
order. -/
structure ClassifyState where
  buckets : Int → Option (Option String)
  dayKept : List VersionRecord
  recentKept : List VersionRecord
  deleted : List VersionRecord

/-- One iteration of the filter callback at lines 165-184: keep the record for
its day bucket if that day is tracked and still unfilled (filling the bucket
with its id); otherwise keep it while fewer than keepMinimum records are held
by the recency rule; otherwise it becomes a deletion candidate. -/
def classifyStep (keepMinimum : Nat) (st : ClassifyState) (r : VersionRecord) :
    ClassifyState :=
  let key := dayKey r.lastDeployed
  if st.buckets key = some none then
    { st with
      buckets := fun k => if k = key then some (some r.id) else st.buckets k
      dayKept := st.dayKept ++ [r] }
  else if st.recentKept.length < keepMinimum then
    { st with recentKept := st.recentKept ++ [r] }
  else
    { st with deleted := st.deleted ++ [r] }

/-- The initial day-bucket map built at lines 155-160. -/
def initBuckets (now : Int) (keepDailyAmount : Nat) :
    Int → Option (Option String) :=
  fun k => if k ∈ trackedDays now keepDailyAmount then some none else none

/-- The classifier of lines 127-184: filter to scope, sort most-recent first,
then run the filter callback over the sorted list. -/
def classify (now : Int) (keepDailyAmount keepMinimum : Nat)
    (project service : String) (records : List VersionRecord) : ClassifyState :=
  (sortedCandidates project service records).foldl (classifyStep keepMinimum)
    { buckets := initBuckets now keepDailyAmount
      dayKept := [], recentKept := [], deleted := [] }

/-- Reference split of a record list into day-bucket keepers and the records
that fall through to the recency rule: `filled` carries the day keys whose
bucket is already filled.  A record is a day keeper exactly when its day is
tracked and not yet filled; keeping it fills its day. -/
def splitDay (tracked : Int → Bool) :
    List VersionRecord → List Int → List VersionRecord × List VersionRecord
  | [], _ => ([], [])
  | r :: rs, filled =>
    let key := dayKey r.lastDeployed
    if tracked key && !(filled.contains key) then
      let p := splitDay tracked rs (key :: filled)
      (r :: p.1, p.2)
    else
      let p := splitDay tracked rs filled
      (p.1, r :: p.2)

/-- The tracked-day predicate of a configuration. -/
def trackedP (now : Int) (keepDailyAmount : Nat) : Int → Bool :=
  fun k => decide (k ∈ trackedDays now keepDailyAmount)

/-- The records kept by the day-bucket rule, in most-recent-first order. -/
def dayKeepers (now : Int) (kd : Nat) (project service : String)
    (records : List VersionRecord) : List VersionRecord :=
  (splitDay (trackedP now kd) (sortedCandidates project service records) []).1

/-- The records that fall through the day-bucket rule, in most-recent-first
order: the recency rule keeps the first keepMinimum of these. -/
def recencyPool (now : Int) (kd : Nat) (project service : String)
    (records : List VersionRecord) : List VersionRecord :=
  (splitDay (trackedP now kd) (sortedCandidates project service records) []).2

lemma foldl_classifyStep_eq (m : Nat) (tracked : Int → Bool) :
    ∀ (l : List VersionRecord) (filled : List Int) (st : ClassifyState),
      (∀ k, st.buckets k = some none ↔ (tracked k = true ∧ k ∉ filled)) →
      (l.foldl (classifyStep m) st).dayKept
          = st.dayKept ++ (splitDay tracked l filled).1 ∧
      (l.foldl (classifyStep m) st).recentKept
          = st.recentKept ++
            ((splitDay tracked l filled).2.take (m - st.recentKept.length)) ∧
      (l.foldl (classifyStep m) st).deleted
          = st.deleted ++
            ((splitDay tracked l filled).2.drop (m - st.recentKept.length)) := by
  intro l
  induction l with
  | nil =>
    intro filled st hb
    simp [splitDay]
  | cons r rs ih =>
    intro filled st hb
    by_cases hday : tracked (dayKey r.lastDeployed) = true ∧
        dayKey r.lastDeployed ∉ filled
    · have hcond : st.buckets (dayKey r.lastDeployed) = some none :=
        (hb _).mpr hday
      have hsplit : splitDay tracked (r :: rs) filled =
          ((r :: (splitDay tracked rs (dayKey r.lastDeployed :: filled)).1),
           (splitDay tracked rs (dayKey r.lastDeployed :: filled)).2) := by
        simp [splitDay, hday.1, hday.2]
      have hstep : classifyStep m st r =
          { st with
            buckets := fun k => if k = dayKey r.lastDeployed
              then some (some r.id) else st.buckets k
            dayKept := st.dayKept ++ [r] } := by
        simp [classifyStep, hcond]
      have hb' : ∀ k, (classifyStep m st r).buckets k = some none ↔
          (tracked k = true ∧ k ∉ dayKey r.lastDeployed :: filled) := by
        intro k
        rw [hstep]
        by_cases hk : k = dayKey r.lastDeployed
        · subst hk
          simp
        · simp only [List.mem_cons]
          simp [hk, hb k]
      obtain ⟨h1, h2, h3⟩ := ih (dayKey r.lastDeployed :: filled)
        (classifyStep m st r) hb'
      rw [List.foldl_cons, hsplit]
      refine ⟨?_, ?_, ?_⟩
      · rw [h1, hstep]
        simp
      · rw [h2, hstep]
      · rw [h3, hstep]
    · have hcond : ¬ st.buckets (dayKey r.lastDeployed) = some none := by
        rw [hb _]
        exact hday
      have hsplit : splitDay tracked (r :: rs) filled =
          ((splitDay tracked rs filled).1,
           r :: (splitDay tracked rs filled).2) := by
        rcases Bool.eq_false_or_eq_true (tracked (dayKey r.lastDeployed)) with h | h
        · have hmem : dayKey r.lastDeployed ∈ filled := by
            by_contra hmem
            exact hday ⟨h, hmem⟩
          simp [splitDay, h, hmem]
        · simp [splitDay, h]
      by_cases hrec : st.recentKept.length < m
      · have hstep : classifyStep m st r =
            { st with recentKept := st.recentKept ++ [r] } := by
          simp [classifyStep, if_neg hcond, hrec]
        obtain ⟨h1, h2, h3⟩ := ih filled (classifyStep m st r)
          (by rw [hstep]; exact hb)
        rw [List.foldl_cons, hsplit]
        refine ⟨?_, ?_, ?_⟩
        · rw [h1, hstep]
        · rw [h2, hstep]
          simp only [List.length_append, List.length_cons, List.length_nil]
          have hmt : m - st.recentKept.length
              = (m - (st.recentKept.length + 1)) + 1 := by
            omega
          rw [hmt, List.take_succ_cons]
          simp
        · rw [h3, hstep]
          simp only [List.length_append, List.length_cons, List.length_nil]
          have hmt : m - st.recentKept.length
              = (m - (st.recentKept.length + 1)) + 1 := by
            omega
          rw [hmt, List.drop_succ_cons]
      · have hstep : classifyStep m st r =
            { st with deleted := st.deleted ++ [r] } := by
          simp [classifyStep, if_neg hcond, hrec]
        obtain ⟨h1, h2, h3⟩ := ih filled (classifyStep m st r)
          (by rw [hstep]; exact hb)
        rw [List.foldl_cons, hsplit]
        have hmt : m - st.recentKept.length = 0 := by omega
        refine ⟨?_, ?_, ?_⟩
        · rw [h1, hstep]
        · rw [h2, hstep]
          simp [hmt]
        · rw [h3, hstep]
          simp [hmt]

lemma classify_parts (now : Int) (kd km : Nat) (p s : String)
    (records : List VersionRecord) :
    (classify now kd km p s records).dayKept = dayKeepers now kd p s records ∧
    (classify now kd km p s records).recentKept
      = (recencyPool now kd p s records).take km ∧
    (classify now kd km p s records).deleted
      = (recencyPool now kd p s records).drop km := by
  have hb : ∀ k, (initBuckets now kd) k = some none ↔
      (trackedP now kd k = true ∧ k ∉ ([] : List Int)) := by
    intro k
    by_cases hk : k ∈ trackedDays now kd
    · simp [initBuckets, trackedP, hk]
    · simp [initBuckets, trackedP, hk]
  obtain ⟨h1, h2, h3⟩ := foldl_classifyStep_eq km (trackedP now kd)
    (sortedCandidates p s records) []
    { buckets := initBuckets now kd, dayKept := [], recentKept := []
      deleted := [] }
    hb
  refine ⟨?_, ?_, ?_⟩
  · simpa [classify, dayKeepers] using h1
  · simpa [classify, recencyPool] using h2
  · simpa [classify, recencyPool] using h3

lemma splitDay_cons_keep (tracked : Int → Bool) (r : VersionRecord)
    (rs : List VersionRecord) (filled : List Int)
    (h1 : tracked (dayKey r.lastDeployed) = true)
    (h2 : dayKey r.lastDeployed ∉ filled) :
    splitDay tracked (r :: rs) filled =
      (r :: (splitDay tracked rs (dayKey r.lastDeployed :: filled)).1,
       (splitDay tracked rs (dayKey r.lastDeployed :: filled)).2) := by
  simp [splitDay, h1, h2]

lemma splitDay_cons_other (tracked : Int → Bool) (r : VersionRecord)
    (rs : List VersionRecord) (filled : List Int)
    (h : ¬(tracked (dayKey r.lastDeployed) = true ∧
      dayKey r.lastDeployed ∉ filled)) :
    splitDay tracked (r :: rs) filled =
      ((splitDay tracked rs filled).1, r :: (splitDay tracked rs filled).2) := by
  rcases Bool.eq_false_or_eq_true (tracked (dayKey r.lastDeployed)) with h' | h'
  · have hmem : dayKey r.lastDeployed ∈ filled := by
      by_contra hmem
      exact h ⟨h', hmem⟩
    simp [splitDay, h', hmem]
  · simp [splitDay, h']

lemma splitDay_perm (tracked : Int → Bool) :
    ∀ (l : List VersionRecord) (filled : List Int),
      ((splitDay tracked l filled).1 ++ (splitDay tracked l filled).2).Perm l := by
  intro l
  induction l with
  | nil =>
    intro filled
    simp [splitDay]
  | cons r rs ih =>
    intro filled
    by_cases h : tracked (dayKey r.lastDeployed) = true ∧
        dayKey r.lastDeployed ∉ filled
    · rw [splitDay_cons_keep tracked r rs filled h.1 h.2]
      rw [List.cons_append]
      exact (ih (dayKey r.lastDeployed :: filled)).cons r
    · rw [splitDay_cons_other tracked r rs filled h]
      exact List.Perm.trans List.perm_middle ((ih filled).cons r)

lemma splitDay_snd_sublist (tracked : Int → Bool) :
    ∀ (l : List VersionRecord) (filled : List Int),
      (splitDay tracked l filled).2.Sublist l := by
  intro l
  induction l with
  | nil =>
    intro filled
    simp [splitDay]
  | cons r rs ih =>
    intro filled
    by_cases h : tracked (dayKey r.lastDeployed) = true ∧
        dayKey r.lastDeployed ∉ filled
    · rw [splitDay_cons_keep tracked r rs filled h.1 h.2]
      exact (ih _).cons r
    · rw [splitDay_cons_other tracked r rs filled h]
      exact (ih filled).cons₂ r

lemma splitDay_fst_days (tracked : Int → Bool) :
    ∀ (l : List VersionRecord) (filled : List Int),
      (∀ q ∈ (splitDay tracked l filled).1,
        tracked (dayKey q.lastDeployed) = true ∧
        dayKey q.lastDeployed ∉ filled) ∧
      ((splitDay tracked l filled).1.map
        (fun q => dayKey q.lastDeployed)).Nodup := by
  intro l
  induction l with
  | nil =>
    intro filled
    simp [splitDay]
  | cons r rs ih =>
    intro filled
    by_cases h : tracked (dayKey r.lastDeployed) = true ∧
        dayKey r.lastDeployed ∉ filled
    · rw [splitDay_cons_keep tracked r rs filled h.1 h.2]
      obtain ⟨ihA, ihB⟩ := ih (dayKey r.lastDeployed :: filled)
      constructor
      · intro q hq
        rcases List.mem_cons.mp hq with hq | hq
        · subst hq
          exact h
        · obtain ⟨hqt, hqf⟩ := ihA q hq
          exact ⟨hqt, fun hmem => hqf (List.mem_cons_of_mem _ hmem)⟩
      · simp only [List.map_cons, List.nodup_cons]
        refine ⟨?_, ihB⟩
        intro hmem
        rcases List.mem_map.mp hmem with ⟨q, hq, hqd⟩
        exact (ihA q hq).2 (by rw [hqd]; exact List.mem_cons_self _ _)
    · rw [splitDay_cons_other tracked r rs filled h]
      exact ih filled

lemma splitDay_fst_exists (tracked : Int → Bool) :
    ∀ (l : List VersionRecord) (filled : List Int) (d : Int),
      tracked d = true → d ∉ filled →
      (∃ r ∈ l, dayKey r.lastDeployed = d) →
      ∃ q ∈ (splitDay tracked l filled).1, dayKey q.lastDeployed = d := by
  intro l
  induction l with
  | nil =>
    intro filled d htd hdf hex
    simp at hex
  | cons r rs ih =>
    intro filled d htd hdf hex
    by_cases hd : dayKey r.lastDeployed = d
    · have h : tracked (dayKey r.lastDeployed) = true ∧
          dayKey r.lastDeployed ∉ filled := by
        rw [hd]
        exact ⟨htd, hdf⟩
      rw [splitDay_cons_keep tracked r rs filled h.1 h.2]
      exact ⟨r, List.mem_cons_self _ _, hd⟩
    · have hex' : ∃ q ∈ rs, dayKey q.lastDeployed = d := by
        rcases hex with ⟨q, hq, hqd⟩
        rcases List.mem_cons.mp hq with hq | hq
        · subst hq
          exact absurd hqd hd
        · exact ⟨q, hq, hqd⟩
      by_cases h : tracked (dayKey r.lastDeployed) = true ∧
          dayKey r.lastDeployed ∉ filled
      · rw [splitDay_cons_keep tracked r rs filled h.1 h.2]
        have hdf' : d ∉ dayKey r.lastDeployed :: filled := by
          intro hmem
          rcases List.mem_cons.mp hmem with hmem | hmem
          · exact hd hmem.symm
          · exact hdf hmem
        obtain ⟨q, hq, hqd⟩ := ih (dayKey r.lastDeployed :: filled) d htd hdf' hex'
        exact ⟨q, List.mem_cons_of_mem _ hq, hqd⟩
      · rw [splitDay_cons_other tracked r rs filled h]
        exact ih filled d htd hdf hex'

lemma splitDay_fst_max (tracked : Int → Bool) :
    ∀ (l : List VersionRecord) (filled : List Int),
      l.Pairwise moreRecent →
      ∀ q ∈ (splitDay tracked l filled).1, ∀ r ∈ l,
        dayKey r.lastDeployed = dayKey q.lastDeployed →
        r.lastDeployed ≤ q.lastDeployed := by
  intro l
  induction l with
  | nil =>
    intro filled hp q hq
    simp [splitDay] at hq
  | cons r0 rs ih =>
    intro filled hp q hq r hr hrd
    rw [List.pairwise_cons] at hp
    obtain ⟨hp0, hps⟩ := hp
    by_cases h : tracked (dayKey r0.lastDeployed) = true ∧
        dayKey r0.lastDeployed ∉ filled
    · rw [splitDay_cons_keep tracked r0 rs filled h.1 h.2] at hq
      rcases List.mem_cons.mp hq with hq | hq
      · subst hq
        rcases List.mem_cons.mp hr with hr | hr
        · subst hr
          exact le_refl _
        · exact hp0 r hr
      · have hqdays :=
          (splitDay_fst_days tracked rs (dayKey q.lastDeployed :: filled)).1
        rcases List.mem_cons.mp hr with hr | hr
        · subst hr
          have hq2 := (splitDay_fst_days tracked rs
            (dayKey r.lastDeployed :: filled)).1 q hq
          exact absurd (by rw [← hrd]; exact List.mem_cons_self _ _) hq2.2
        · exact ih (dayKey r0.lastDeployed :: filled) hps q hq r hr hrd
    · rw [splitDay_cons_other tracked r0 rs filled h] at hq
      have hq2 := (splitDay_fst_days tracked rs filled).1 q hq
      rcases List.mem_cons.mp hr with hr | hr
      · subst hr
        exfalso
        have ht0 : tracked (dayKey r.lastDeployed) = true := by
          rw [hrd]
          exact hq2.1
        have hmem : dayKey r.lastDeployed ∈ filled := by
          by_contra hmem
          exact h ⟨ht0, hmem⟩
        rw [hrd] at hmem
        exact hq2.2 hmem
      · exact ih filled hps q hq r hr hrd

lemma filter_day_length_le_one (d : Int) :
    ∀ (l : List VersionRecord),
      ((l.map (fun q => dayKey q.lastDeployed)).Nodup) →
      (l.filter (fun q => decide (dayKey q.lastDeployed = d))).length ≤ 1 := by
  intro l
  induction l with
  | nil =>
    intro _
    simp
  | cons r rs ih =>
    intro h
    simp only [List.map_cons, List.nodup_cons] at h
    obtain ⟨hnot, hnd⟩ := h
    by_cases hd : dayKey r.lastDeployed = d
    · have hnil : rs.filter (fun q => decide (dayKey q.lastDeployed = d)) = [] := by
        rw [List.filter_eq_nil_iff]
        intro q hq
        simp only [decide_eq_true_eq]
        intro hqd
        exact hnot (List.mem_map.mpr ⟨q, hq, by rw [hqd, hd]⟩)
      simp [List.filter_cons, hd, hnil]
    · rw [List.filter_cons]
      simp only [hd, decide_False]
      exact ih hnd

/-- C1: for every record list, policy, and instant, the kept ids (day-bucket
rule plus recency rule) and the deletion-candidate ids are disjoint, and
together they are exactly the ids of the records matching the configured
project and service with zero traffic split; every other record (out of scope
or serving traffic) appears in neither set.  Id uniqueness of the in-scope
records, part of the data model, is assumed for the disjointness of id sets. -/
theorem c1_partition_invariant (now : Int) (kd km : Nat) (p s : String)
    (records : List VersionRecord)
    (hnodup : ((records.filter (inScope p s)).map VersionRecord.id).Nodup) :
    (∀ x, x ∈ ((classify now kd km p s records).dayKept
          ++ (classify now kd km p s records).recentKept).map VersionRecord.id →
        x ∉ ((classify now kd km p s records).deleted).map VersionRecord.id) ∧
    (∀ x, (x ∈ ((classify now kd km p s records).dayKept
          ++ (classify now kd km p s records).recentKept).map VersionRecord.id ∨
        x ∈ ((classify now kd km p s records).deleted).map VersionRecord.id) ↔
      ∃ r, r ∈ records ∧ inScope p s r = true ∧ r.id = x) := by
  obtain ⟨h1, h2, h3⟩ := classify_parts now kd km p s records
  have hperm : (((classify now kd km p s records).dayKept
      ++ (classify now kd km p s records).recentKept)
      ++ (classify now kd km p s records).deleted).Perm
      (records.filter (inScope p s)) := by
    rw [h1, h2, h3, List.append_assoc, List.take_append_drop]
    unfold dayKeepers recencyPool
    exact List.Perm.trans (splitDay_perm _ _ _)
      (List.perm_insertionSort _ _)
  have hpermMap := hperm.map VersionRecord.id
  rw [List.map_append] at hpermMap
  constructor
  · have hnodupBig : (((classify now kd km p s records).dayKept
        ++ (classify now kd km p s records).recentKept).map VersionRecord.id
        ++ ((classify now kd km p s records).deleted).map VersionRecord.id).Nodup :=
      (hpermMap.nodup_iff).mpr hnodup
    rw [List.nodup_append] at hnodupBig
    intro x hx
    exact hnodupBig.2.2 hx
  · intro x
    rw [← List.mem_append, hpermMap.mem_iff]
    simp only [List.mem_map, List.mem_filter]
    constructor
    · rintro ⟨r, ⟨hr, hsc⟩, hid⟩
      exact ⟨r, hr, hsc, hid⟩
    · rintro ⟨r, hr, hsc, hid⟩
      exact ⟨r, ⟨hr, hsc⟩, hid⟩

/-- Concrete records for the classifier witnesses: three zero-traffic records
of project "p", service "s" (two on day 10, one on day 9, timestamps in ms
since epoch), one record of another project, and one record serving traffic. -/
def wRec1 : VersionRecord := ⟨"v1", "p", "s", 0, 0, 864002000⟩

def wRec2 : VersionRecord := ⟨"v2", "p", "s", 0, 0, 864001000⟩

def wRec3 : VersionRecord := ⟨"v3", "p", "s", 0, 0, 777600000⟩

def wRecOff : VersionRecord := ⟨"v4", "q", "s", 0, 0, 864000500⟩

def wRecTraffic : VersionRecord := ⟨"v5", "p", "s", 1, 0, 864000500⟩

def wRecords : List VersionRecord :=
  [wRec1, wRec2, wRec3, wRecOff, wRecTraffic]

/-- Witness for C1: with now at day 10, one tracked day and keepMinimum 1,
record v1 is kept (day bucket), v2 is kept (recency), v3 is the sole deletion
candidate; in particular the kept id v1 is not among the deletion ids. -/
theorem c1_partition_invariant_witness :
    "v1" ∉ ((classify 864000000 1 1 "p" "s" wRecords).deleted).map
      VersionRecord.id :=
  (c1_partition_invariant 864000000 1 1 "p" "s" wRecords (by decide)).1
    "v1" (by decide)

/-- C2: each tracked trailing calendar day protects at most one version and,
when at least one in-scope zero-traffic record falls on a tracked day, the
day-bucket rule keeps exactly one record of that day, one whose timestamp is
the most recent among that day's records. -/
theorem c2_day_bucket_rule (now : Int) (kd km : Nat) (p s : String)
    (records : List VersionRecord) (d : Int)
    (hd : d ∈ trackedDays now kd) :
    ((classify now kd km p s records).dayKept.filter
        (fun q => decide (dayKey q.lastDeployed = d))).length ≤ 1 ∧
    ((∃ r ∈ records.filter (inScope p s), dayKey r.lastDeployed = d) →
      ∃ q, (classify now kd km p s records).dayKept.filter
          (fun w => decide (dayKey w.lastDeployed = d)) = [q] ∧
        q ∈ records.filter (inScope p s) ∧ dayKey q.lastDeployed = d ∧
        ∀ r ∈ records.filter (inScope p s), dayKey r.lastDeployed = d →
          r.lastDeployed ≤ q.lastDeployed) := by
  obtain ⟨h1, _, _⟩ := classify_parts now kd km p s records
  rw [h1]
  have hdays := splitDay_fst_days (trackedP now kd)
    (sortedCandidates p s records) []
  have hle : ((dayKeepers now kd p s records).filter
      (fun q => decide (dayKey q.lastDeployed = d))).length ≤ 1 :=
    filter_day_length_le_one d _ hdays.2
  refine ⟨hle, ?_⟩
  intro hex
  have hsortmem : ∀ r : VersionRecord,
      r ∈ sortedCandidates p s records ↔
        r ∈ records.filter (inScope p s) :=
    fun r => (List.perm_insertionSort moreRecent _).mem_iff
  have hex' : ∃ r ∈ sortedCandidates p s records, dayKey r.lastDeployed = d := by
    rcases hex with ⟨r, hr, hrd⟩
    exact ⟨r, (hsortmem r).mpr hr, hrd⟩
  have htd : trackedP now kd d = true := by
    simp [trackedP, hd]
  obtain ⟨q0, hq0, hq0d⟩ := splitDay_fst_exists (trackedP now kd)
    (sortedCandidates p s records) [] d htd (by simp) hex'
  have hq0f : q0 ∈ (dayKeepers now kd p s records).filter
      (fun w => decide (dayKey w.lastDeployed = d)) := by
    rw [List.mem_filter]
    exact ⟨hq0, by simp [hq0d]⟩
  have hlen1 : ((dayKeepers now kd p s records).filter
      (fun w => decide (dayKey w.lastDeployed = d))).length = 1 := by
    have : 0 < ((dayKeepers now kd p s records).filter
        (fun w => decide (dayKey w.lastDeployed = d))).length :=
      List.length_pos.mpr (List.ne_nil_of_mem hq0f)
    omega
  obtain ⟨q, hq⟩ := List.length_eq_one.mp hlen1
  refine ⟨q, hq, ?_, ?_, ?_⟩
  · have hqk : q ∈ dayKeepers now kd p s records := by
      have : q ∈ (dayKeepers now kd p s records).filter
          (fun w => decide (dayKey w.lastDeployed = d)) := by
        rw [hq]
        exact List.mem_cons_self _ _
      exact (List.mem_filter.mp this).1
    have hqs : q ∈ sortedCandidates p s records := by
      have hperm := splitDay_perm (trackedP now kd)
        (sortedCandidates p s records) []
      exact hperm.mem_iff.mp
        (List.mem_append.mpr (Or.inl hqk))
    exact (hsortmem q).mp hqs
  · have : q ∈ (dayKeepers now kd p s records).filter
        (fun w => decide (dayKey w.lastDeployed = d)) := by
      rw [hq]
      exact List.mem_cons_self _ _
    have := (List.mem_filter.mp this).2
    simpa using this
  · intro r hr hrd
    have hqk : q ∈ dayKeepers now kd p s records := by
      have : q ∈ (dayKeepers now kd p s records).filter
          (fun w => decide (dayKey w.lastDeployed = d)) := by
        rw [hq]
        exact List.mem_cons_self _ _
      exact (List.mem_filter.mp this).1
    have hqd : dayKey q.lastDeployed = d := by
      have : q ∈ (dayKeepers now kd p s records).filter
          (fun w => decide (dayKey w.lastDeployed = d)) := by
        rw [hq]
        exact List.mem_cons_self _ _
      have := (List.mem_filter.mp this).2
      simpa using this
    have hpair : (sortedCandidates p s records).Pairwise moreRecent :=
      List.sorted_insertionSort moreRecent _
    exact splitDay_fst_max (trackedP now kd) (sortedCandidates p s records)
      [] hpair q hqk r ((hsortmem r).mpr hr) (by rw [hrd, hqd])

/-- Witness for C2: with now at day 10 and one tracked day (day 10, which two
in-scope records v1 and v2 fall on), the day-bucket rule keeps exactly one
record of day 10, with the most recent timestamp of that day. -/
theorem c2_day_bucket_rule_witness :
    ((classify 864000000 1 0 "p" "s" wRecords).dayKept.filter
        (fun q => decide (dayKey q.lastDeployed = 10))).length ≤ 1 ∧
    ((∃ r ∈ wRecords.filter (inScope "p" "s"), dayKey r.lastDeployed = 10) →
      ∃ q, (classify 864000000 1 0 "p" "s" wRecords).dayKept.filter
          (fun w => decide (dayKey w.lastDeployed = 10)) = [q] ∧
        q ∈ wRecords.filter (inScope "p" "s") ∧ dayKey q.lastDeployed = 10 ∧
        ∀ r ∈ wRecords.filter (inScope "p" "s"), dayKey r.lastDeployed = 10 →
          r.lastDeployed ≤ q.lastDeployed) :=
  c2_day_bucket_rule 864000000 1 0 "p" "s" wRecords 10 (by decide)

/-- C3: at most keepMinimum versions are kept by the recency-count rule, and
they are exactly the first keepMinimum records of the most-recent-first pool
obtained from the in-scope zero-traffic records by removing the day-bucket
keeps: the pool is a subsequence of the descending-sorted candidate list, and
together with the day-bucket keeps it is a permutation of that list. -/
theorem c3_recency_rule (now : Int) (kd km : Nat) (p s : String)
    (records : List VersionRecord) :
    (classify now kd km p s records).recentKept.length ≤ km ∧
    (classify now kd km p s records).recentKept
      = (recencyPool now kd p s records).take km ∧
    (recencyPool now kd p s records).Sublist (sortedCandidates p s records) ∧
    ((classify now kd km p s records).dayKept
        ++ recencyPool now kd p s records).Perm
      (sortedCandidates p s records) ∧
    (sortedCandidates p s records).Pairwise moreRecent := by
  obtain ⟨h1, h2, _⟩ := classify_parts now kd km p s records
  refine ⟨?_, h2, ?_, ?_, ?_⟩
  · rw [h2, List.length_take]
    omega
  · exact splitDay_snd_sublist (trackedP now kd)
      (sortedCandidates p s records) []
  · rw [h1]
    unfold dayKeepers recencyPool
    exact splitDay_perm (trackedP now kd) (sortedCandidates p s records) []
  · exact List.sorted_insertionSort moreRecent _

/-- C4: a record that fell through the day-bucket rule (for instance because
its tracked day bucket was already filled by a more recent record) is not
automatically a deletion candidate: at position i of the most-recent-first
pool it is kept by the recency rule when i < keepMinimum, and becomes a
deletion candidate only when i >= keepMinimum. -/
theorem c4_filled_bucket_falls_through (now : Int) (kd km : Nat)
    (p s : String) (records : List VersionRecord) (i : Nat)
    (hi : i < (recencyPool now kd p s records).length)
    (_ht : trackedP now kd
      (dayKey ((recencyPool now kd p s records).get ⟨i, hi⟩).lastDeployed)
      = true) :
    (i < km →
      (recencyPool now kd p s records).get ⟨i, hi⟩
        ∈ (classify now kd km p s records).recentKept) ∧
    (km ≤ i →
      (recencyPool now kd p s records).get ⟨i, hi⟩
        ∈ (classify now kd km p s records).deleted) := by
  obtain ⟨_, h2, h3⟩ := classify_parts now kd km p s records
  constructor
  · intro hikm
    rw [h2]
    have hlt : i < ((recencyPool now kd p s records).take km).length := by
      rw [List.length_take]
      omega
    have heq : ((recencyPool now kd p s records).take km).get ⟨i, hlt⟩
        = (recencyPool now kd p s records).get ⟨i, hi⟩ := by
      simp [List.get_eq_getElem, List.getElem_take]
    rw [← heq]
    exact List.get_mem _ _ hlt
  · intro hkmi
    rw [h3]
    have hlt : i - km < ((recencyPool now kd p s records).drop km).length := by
      rw [List.length_drop]
      omega
    have heq : ((recencyPool now kd p s records).drop km).get ⟨i - km, hlt⟩
        = (recencyPool now kd p s records).get ⟨i, hi⟩ := by
      simp only [List.get_eq_getElem, List.getElem_drop]
      congr 1
      omega
    rw [← heq]
    exact List.get_mem _ _ hlt

/-- Witness for C4: with now at day 10, one tracked day and keepMinimum 1,
record v2 (same tracked day 10 as the more recent v1, which filled the
bucket) sits at pool position 0 < 1 and is kept by the recency rule. -/
theorem c4_filled_bucket_falls_through_witness :
    (recencyPool 864000000 1 "p" "s" wRecords).get ⟨0, by decide⟩
      ∈ (classify 864000000 1 1 "p" "s" wRecords).recentKept :=
  (c4_filled_bucket_falls_through 864000000 1 1 "p" "s" wRecords 0
    (by decide) (by decide)).1 (by decide)

/-! ## Orchestrator (src/index.js, purgeOldVersionsFor lines 108-198, and
fetchVersions lines 36-50) -/

/-- Default for keepMinimum (line 23). -/
def keepMinimumDefault : Nat := 20

/-- Default for keepDailyAmount (line 24). -/
def keepDailyAmountDefault : Nat := 7

/-- The recognized options of the exported entry point (README and the
PurgeOptions declaration): project is required, the others are optional. -/
structure PurgeOptions where
  project : String
  service : Option String
  keepMinimum : Option Nat
  keepDailyAmount : Option Nat
  log : Option JsVal

/-- Property access on a modelled JavaScript value.  None of the values JsVal
can hold (undefined, a primitive string, a number, a function) carries the
properties the program reads off its options objects (project, service, log),
so the access yields undefined; in particular property access on a primitive
string yields undefined.  This matters because purgeOldVersionsFor passes the
plain project string where fetchVersions and deleteVersions expect the
options object (lines 125 and 186-190). -/
def jsField : JsVal → String → JsVal
  | .undef, _ => .undef
  | .str _, _ => .undef
  | .num _, _ => .undef
  | .fn, _ => (JsVal.undef)

/-- The argv fetchVersions (lines 36-50) hands to the external list command,
as a function of its options argument: the project and service slots are the
destructured project and service fields of that argument. -/
def fetchGcloudArgv (optionsArg : JsVal) : List JsVal :=
  [.str ("app"), .str ("--project"), jsField optionsArg ("project"),
   .str ("versions"), .str ("list"),
   .str ("--service"), jsField optionsArg ("service"),
   .str ("--format=\"json\"")]

/-- The options value purgeOldVersionsFor passes to fetchVersions at line
125: the destructured project string itself, not the options object. -/
def purgeFetchOptionsArg (options : PurgeOptions) : JsVal :=
  .str options.project

/-- The argv of the list call the orchestrator actually issues. -/
def purgeFetchArgv (options : PurgeOptions) : List JsVal :=
  fetchGcloudArgv (purgeFetchOptionsArg options)

/-- The options value purgeOldVersionsFor passes to deleteVersions at lines
186-190: again the plain project string (the candidate ids are the second
argument, and the service string is a third, ignored, argument). -/
def purgeDeleteOptionsArg (options : PurgeOptions) : JsVal :=
  .str options.project

/-- The merged service setting (lines 117-120). -/
def mergedService (options : PurgeOptions) : String :=
  options.service.getD ("default")

/-- The merged log sink (lines 117-120): the supplied one, else the default
console.info writer, which is a callable value. -/
def mergedLog (options : PurgeOptions) : JsVal :=
  (options.log).getD .fn

/-- The tail of purgeOldVersionsFor (lines 186-196): propagate an exception
from deleteVersions; otherwise fail when deletions were requested but none
completed, and produce undefined (the function has no return statement). -/
def purgeFinish (ids : List String) (res : Except String Nat) :
    Except String JsVal :=
  match res with
  | .error e => .error e
  | .ok count =>
    if ids.length ≠ 0 ∧ count = 0 then
      .error ("Deleted 0 versions with error")
    else
      .ok (JsVal.undef)

/-- purgeOldVersionsFor (lines 114-198), with the outcome of the fetch call
supplied as a parameter and the external delete calls modelled by the oracle
`ok`: merge the defaults, classify, hand the candidate ids to deleteVersions
- passing the plain project string as its options argument, so the log value
deleteVersions destructures is undefined - and finally fail when there were
candidates but the count is zero.  The function body has no return statement,
so a non-throwing run produces the value undefined. -/
def purgeOldVersionsFor (now : Int) (options : PurgeOptions)
    (fetched : Except String (List VersionRecord)) (ok : Nat → Bool) :
    Except String JsVal :=
  match fetched with
  | .error e => .error e
  | .ok records =>
    let km := options.keepMinimum.getD keepMinimumDefault
    let kd := options.keepDailyAmount.getD keepDailyAmountDefault
    let st := classify now kd km options.project (mergedService options) records
    let ids := st.deleted.map VersionRecord.id
    let logv := jsField (purgeDeleteOptionsArg options) ("log")
    purgeFinish ids (deleteVersions logv ok ids).2

/-- An in-scope record for service "default" (used by the orchestrator-level
theorems, since the default-merged service is "default"). -/
def wRecDefault : VersionRecord := ⟨"v6", "p", "default", 0, 0, 864002000⟩

/-- C7 (code evidence): the claimed error asymmetry cannot operate, because a
run with at least one deletion candidate always fails: deleteVersions is
invoked with the plain project string as its options argument, so the log
value it destructures is undefined and the first loop iteration throws a
TypeError before any external call.  Here a run with one candidate errors
even though every external delete call would succeed, so no partial success
count can ever arise or be reported. -/
theorem c7_failure_asymmetry_unreachable :
    purgeOldVersionsFor 864000000 ⟨"p", none, some 0, some 0, none⟩
      (.ok [wRecDefault]) (fun _ => true)
      = .error ("TypeError: log is not a function") := by
  have hids : (classify 864000000 0 0 "p" "default" [wRecDefault]).deleted.map
      VersionRecord.id = ["v6"] := by
    decide
  show purgeFinish
      ((classify 864000000 0 0 "p" "default" [wRecDefault]).deleted.map
        VersionRecord.id)
      (deleteVersions JsVal.undef (fun _ => true)
        ((classify 864000000 0 0 "p" "default" [wRecDefault]).deleted.map
          VersionRecord.id)).2
      = .error ("TypeError: log is not a function")
  rw [hids]
  have hdel : (deleteVersions JsVal.undef (fun _ => true) ["v6"]).2
      = .error ("TypeError: log is not a function") := by
    simp [deleteVersions, deleteLoop, badVersion]
  rw [hdel]
  rfl

/-- C8 (code evidence): a successful run does not return the deleted-version
count: purgeOldVersionsFor has no return statement, so its result value is
undefined and never a number, although the README, the PurgeOptions
declaration and run.js all expect the count.  Here a run whose fetch succeeds
with no in-scope records completes without error and yields undefined. -/
theorem c8_missing_return :
    purgeOldVersionsFor 864000000 ⟨"p", none, none, none, none⟩
      (.ok []) (fun _ => true) = .ok .undef ∧
    (∀ n : Int, JsVal.undef ≠ .num n) := by
  constructor
  · have hids : (classify 864000000 7 20 "p" "default" []).deleted.map
        VersionRecord.id = [] := by
      decide
    show purgeFinish
        ((classify 864000000 7 20 "p" "default" []).deleted.map
          VersionRecord.id)
        (deleteVersions JsVal.undef (fun _ => true)
          ((classify 864000000 7 20 "p" "default" []).deleted.map
            VersionRecord.id)).2
        = .ok .undef
    rw [hids]
    have hdel : (deleteVersions JsVal.undef (fun _ => true) []).2 = .ok 0 := by
      simp [deleteVersions, deleteLoop]
    rw [hdel]
    rfl
  · exact fun n h => JsVal.noConfusion h

/-- C9 (code evidence): the orchestrator computes the documented defaults
(service "default", keepMinimum 20, keepDailyAmount 7, a callable log sink),
but it does not issue the external calls for the configured pair: it passes
the plain project string where fetchVersions expects the options object, so
the project and service slots of the issued list command are undefined
instead of the configured strings; likewise deleteVersions receives the
project string as its options argument, so the log sink it destructures is
undefined rather than the merged sink. -/
theorem c9_orchestrator_wiring_bug :
    purgeFetchArgv ⟨"my-project", none, none, none, none⟩ =
      [.str ("app"), .str ("--project"), .undef, .str ("versions"),
       .str ("list"), .str ("--service"), .undef,
       .str ("--format=\"json\"")] ∧
    mergedService ⟨"my-project", none, none, none, none⟩ = "default" ∧
    keepMinimumDefault = 20 ∧
    keepDailyAmountDefault = 7 ∧
    mergedLog ⟨"my-project", none, none, none, none⟩ = .fn ∧
    purgeDeleteOptionsArg ⟨"my-project", none, none, none, none⟩
      = .str ("my-project") ∧
    jsField (purgeDeleteOptionsArg ⟨"my-project", none, none, none, none⟩)
      ("log") = .undef ∧
    (∀ v : String, JsVal.undef ≠ .str v) := by
  refine ⟨rfl, rfl, rfl, rfl, rfl, rfl, rfl, ?_⟩
  exact fun v h => JsVal.noConfusion h
